import Mathlib

/-!
Verification of the credential-vault core: hash-chained audit ledger,
metadata registry, and the credential mutation protocol
(create / rotate / delete / rollback).

The definitions below are shallow embeddings of the Rust sources:
  * `src/core/audit_log.rs`   — audit ledger (append, read, verify_chain)
  * `src/core/metadata.rs`    — vault.toml registry (load, save, upsert, remove)
  * `src/cli/credential.rs`   — create / rotate / delete / rollback protocol
  * `src/cli/mod.rs`          — audit_simple
Machine integers are modelled as `Nat` with explicit reduction modulo 2^32
where the SHA-256 compression function needs it; file contents are byte
lists; fallible operations return `Except`.
-/

namespace Vault

/-! ## SHA-256 (the `sha2` crate's `Sha256::digest`, rendered as lowercase hex)

Implemented over byte lists (`List Nat`, each entry < 256), words as `Nat`
reduced mod 2^32. -/

/-- Reduce to a 32-bit word. -/
def w32 (n : Nat) : Nat := n % 4294967296

/-- Right rotation of a 32-bit word. -/
def rotr (n x : Nat) : Nat := w32 ((x >>> n) ||| (x <<< (32 - n)))

/-- SHA-256 round constants. -/
def shaK : List Nat :=
  [1116352408, 1899447441, 3049323471, 3921009573, 961987163, 1508970993,
   2453635748, 2870763221, 3624381080, 310598401, 607225278, 1426881987,
   1925078388, 2162078206, 2614888103, 3248222580, 3835390401, 4022224774,
   264347078, 604807628, 770255983, 1249150122, 1555081692, 1996064986,
   2554220882, 2821834349, 2952996808, 3210313671, 3336571891, 3584528711,
   113926993, 338241895, 666307205, 773529912, 1294757372, 1396182291,
   1695183700, 1986661051, 2177026350, 2456956037, 2730485921, 2820302411,
   3259730800, 3345764771, 3516065817, 3600352804, 4094571909, 275423344,
   430227734, 506948616, 659060556, 883997877, 958139571, 1322822218,
   1537002063, 1747873779, 1955562222, 2024104815, 2227730452, 2361852424,
   2428436474, 2756734187, 3204031479, 3329325298]

/-- SHA-256 initial hash state. -/
def shaH0 : List Nat :=
  [1779033703, 3144134277, 1013904242, 2773480762, 1359893119, 2600822924,
   528734635, 1541459225]

/-- Big-endian 8-byte encoding of the bit length. -/
def lenBytes (bitLen : Nat) : List Nat :=
  [w32 (bitLen >>> 56) % 256, (bitLen >>> 48) % 256, (bitLen >>> 40) % 256,
   (bitLen >>> 32) % 256, (bitLen >>> 24) % 256, (bitLen >>> 16) % 256,
   (bitLen >>> 8) % 256, bitLen % 256]

/-- SHA-256 padding: append 0x80, zeros to 56 mod 64, then the bit length. -/
def padMsg (msg : List Nat) : List Nat :=
  let len := msg.length
  let z := (119 - len % 64) % 64
  msg ++ 0x80 :: List.replicate z 0 ++ lenBytes (8 * len)

/-- Group bytes into big-endian 32-bit words. -/
def toWords : List Nat → List Nat
  | a :: b :: c :: d :: rest => ((a <<< 24) ||| (b <<< 16) ||| (c <<< 8) ||| d) :: toWords rest
  | _ => []

/-- Split a byte list into 64-byte blocks (structural recursion on a fuel
bound so the kernel can evaluate it). -/
def toBlocksFuel : Nat → List Nat → List (List Nat)
  | 0, _ => []
  | _, [] => []
  | n + 1, l => l.take 64 :: toBlocksFuel n (l.drop 64)

/-- Split a byte list into 64-byte blocks. -/
def toBlocks (l : List Nat) : List (List Nat) := toBlocksFuel l.length l

/-- Extend the 16-word message schedule by `n` further words. -/
def extendSchedule (w : List Nat) : Nat → List Nat
  | 0 => w
  | n + 1 =>
    let i := w.length
    let w15 := w.getD (i - 15) 0
    let w2 := w.getD (i - 2) 0
    let s0 := (rotr 7 w15) ^^^ (rotr 18 w15) ^^^ (w15 >>> 3)
    let s1 := (rotr 17 w2) ^^^ (rotr 19 w2) ^^^ (w2 >>> 10)
    extendSchedule (w ++ [w32 (w.getD (i - 16) 0 + s0 + w.getD (i - 7) 0 + s1)]) n

/-- One SHA-256 compression round; the state is the eight working words. -/
def shaRound (st : List Nat) (kw : Nat) : List Nat :=
  match st with
  | [a, b, c, d, e, f, g, h] =>
    let s1 := (rotr 6 e) ^^^ (rotr 11 e) ^^^ (rotr 25 e)
    let ch := (e &&& f) ^^^ ((e ^^^ 0xffffffff) &&& g)
    let t1 := w32 (h + s1 + ch + kw)
    let s0 := (rotr 2 a) ^^^ (rotr 13 a) ^^^ (rotr 22 a)
    let mj := (a &&& b) ^^^ (a &&& c) ^^^ (b &&& c)
    let t2 := w32 (s0 + mj)
    [w32 (t1 + t2), a, b, c, w32 (d + t1), e, f, g]
  | _ => st

/-- Compress one 64-byte block into the hash state. -/
def compressBlock (h : List Nat) (block : List Nat) : List Nat :=
  let w := extendSchedule (toWords block) 48
  let st := (w.zip shaK).foldl (fun st p => shaRound st (w32 (p.1 + p.2))) h
  List.zipWith (fun x y => w32 (x + y)) h st

/-- SHA-256 digest of a byte list, as eight 32-bit words. -/
def sha256 (msg : List Nat) : List Nat :=
  (toBlocks (padMsg msg)).foldl compressBlock shaH0

/-- Lowercase hex digit. -/
def hexDigit (n : Nat) : Char :=
  if n < 10 then Char.ofNat (48 + n) else Char.ofNat (87 + n)

/-- Eight lowercase hex digits of a 32-bit word. -/
def wordHex (x : Nat) : List Char :=
  [hexDigit ((x >>> 28) &&& 15), hexDigit ((x >>> 24) &&& 15),
   hexDigit ((x >>> 20) &&& 15), hexDigit ((x >>> 16) &&& 15),
   hexDigit ((x >>> 12) &&& 15), hexDigit ((x >>> 8) &&& 15),
   hexDigit ((x >>> 4) &&& 15), hexDigit (x &&& 15)]

/-- `format!("{:064x}", Sha256::digest(msg))`: the digest as 64 lowercase
hex characters. -/
def sha256hex (msg : List Nat) : String :=
  String.mk ((sha256 msg).map wordHex).flatten

/-- UTF-8 bytes of a string; all strings hashed by the ledger are ASCII,
for which the code points are the bytes. -/
def strBytes (s : String) : List Nat := s.data.map Char.toNat

/-! ## JSON values (`serde_json::Value`)

Arrays and objects are encoded as the mutually inductive `JArr` / `JObj`
(isomorphic to `List Json` / `List (String × Json)`, see `JArr.toList`,
`JObj.toList`) so that the recursive functions below are structural and the
kernel can evaluate them. An object is an association list of fields; the
`serde_json` map holds each key at most once. -/

mutual
inductive Json where
| null
| bool (b : Bool)
| num (n : Nat)
| str (s : String)
| arr (xs : JArr)
| obj (fs : JObj)
deriving Repr
inductive JArr where
| nil
| cons (hd : Json) (tl : JArr)
deriving Repr
inductive JObj where
| nil
| cons (k : String) (v : Json) (tl : JObj)
deriving Repr
end

def JArr.toList : JArr → List Json
  | .nil => []
  | .cons x tl => x :: tl.toList

def JArr.ofList : List Json → JArr
  | [] => .nil
  | x :: tl => .cons x (JArr.ofList tl)

def JObj.toList : JObj → List (String × Json)
  | .nil => []
  | .cons k v tl => (k, v) :: tl.toList

def JObj.ofList : List (String × Json) → JObj
  | [] => .nil
  | (k, v) :: tl => .cons k v (JObj.ofList tl)

/-- Byte-lexicographic comparison of key strings, as `Ord` on Rust `String`
(for ASCII — the only keys that occur — UTF-8 byte order and code-point
order agree). -/
def charsLe : List Char → List Char → Bool
  | [], _ => true
  | _ :: _, [] => false
  | a :: as, b :: bs =>
    if a.toNat < b.toNat then true
    else if b.toNat < a.toNat then false
    else charsLe as bs

def keyLeb (a b : String) : Bool := charsLe a.data b.data

/-- Sort object fields by key (`keys.sort()` over the map's keys; the map
iteration then follows that order). -/
def sortFields (fs : List (String × Json)) : List (String × Json) :=
  List.insertionSort (fun p q => keyLeb p.1 q.1 = true) fs

mutual
/-- `canonicalize_value`: recursively sort object keys; arrays and scalars
keep their order and values. -/
def canonicalize_value : Json → Json
  | .obj fs => .obj (JObj.ofList (sortFields (JObj.toList (canonObj fs))))
  | .arr xs => .arr (canonArr xs)
  | v => v
def canonArr : JArr → JArr
  | .nil => .nil
  | .cons x tl => .cons (canonicalize_value x) (canonArr tl)
def canonObj : JObj → JObj
  | .nil => .nil
  | .cons k v tl => .cons k (canonicalize_value v) (canonObj tl)
end

/-- The canonicalization of an association list's values (the list form of
`canonObj`). -/
def canonPairs (l : List (String × Json)) : List (String × Json) :=
  l.map (fun p => (p.1, canonicalize_value p.2))

/-- One character of `serde_json` string escaping. -/
def escapeChar (c : Char) : List Char :=
  if c = '\"' then ['\\', '\"']
  else if c = '\\' then ['\\', '\\']
  else if c = Char.ofNat 8 then ['\\', 'b']
  else if c = Char.ofNat 9 then ['\\', 't']
  else if c = Char.ofNat 10 then ['\\', 'n']
  else if c = Char.ofNat 12 then ['\\', 'f']
  else if c = Char.ofNat 13 then ['\\', 'r']
  else if c.toNat < 32 then ['\\', 'u', '0', '0', hexDigit (c.toNat / 16), hexDigit (c.toNat % 16)]
  else [c]

/-- A JSON string literal: quoted and escaped. -/
def strQuote (s : String) : List Char :=
  '\"' :: (s.data.map escapeChar).flatten ++ ['\"']

def lbrace : Char := Char.ofNat 123

def rbrace : Char := Char.ofNat 125

mutual
/-- Compact serialization, `serde_json::to_string` on a `Value`. -/
def jsonChars : Json → List Char
  | .null => ("null").data
  | .bool true => ("true").data
  | .bool false => ("false").data
  | .num n => Nat.toDigits 10 n
  | .str s => strQuote s
  | .arr xs => '[' :: arrChars xs ++ [']']
  | .obj fs => lbrace :: objChars fs ++ [rbrace]
def arrChars : JArr → List Char
  | .nil => []
  | .cons x .nil => jsonChars x
  | .cons x (.cons y tl) => jsonChars x ++ ',' :: arrChars (.cons y tl)
def objChars : JObj → List Char
  | .nil => []
  | .cons k v .nil => strQuote k ++ ':' :: jsonChars v
  | .cons k v (.cons k2 v2 tl) =>
    strQuote k ++ ':' :: jsonChars v ++ ',' :: objChars (.cons k2 v2 tl)
end

/-- `serde_json::to_string` of a value, as a Lean string. -/
def jsonString (v : Json) : String := String.mk (jsonChars v)

/-- Distinctness of a key list. -/
def distinctKeys : List String → Bool
  | [] => true
  | k :: ks => (!ks.contains k) && distinctKeys ks

mutual
/-- Every object in the value holds each key at most once (always true of
values produced by `serde_json`, whose maps are keyed uniquely). -/
def keysNodup : Json → Bool
  | .obj fs => distinctKeys ((JObj.toList fs).map Prod.fst) && keysNodupObj fs
  | .arr xs => keysNodupArr xs
  | _ => true
def keysNodupArr : JArr → Bool
  | .nil => true
  | .cons x tl => keysNodup x && keysNodupArr tl
def keysNodupObj : JObj → Bool
  | .nil => true
  | .cons _ v tl => keysNodup v && keysNodupObj tl
end

/-- Find the first field with the given key; return its value and the
object with that field removed. -/
def eraseKey (key : String) : JObj → Option (Json × JObj)
  | .nil => none
  | .cons k v tl =>
    if k = key then some (v, tl)
    else match eraseKey key tl with
      | some (w, tl') => some (w, .cons k v tl')
      | none => none

mutual
/-- Decidable test for "equal up to object key ordering, recursively":
scalars and array structure must match exactly, object fields must match up
to permutation (with recursively equivalent values). -/
def keyPermB : Json → Json → Bool
  | .null, .null => true
  | .bool a, .bool b => a == b
  | .num a, .num b => a == b
  | .str a, .str b => a == b
  | .arr xs, .arr ys => keyPermArr xs ys
  | .obj fs, .obj gs => keyPermObj fs gs
  | _, _ => false
def keyPermArr : JArr → JArr → Bool
  | .nil, .nil => true
  | .cons x xs, .cons y ys => keyPermB x y && keyPermArr xs ys
  | _, _ => false
def keyPermObj : JObj → JObj → Bool
  | .nil, gs => gs.toList.isEmpty
  | .cons k v fs, gs =>
    match eraseKey k gs with
    | some (w, gs') => keyPermB v w && keyPermObj fs gs'
    | none => false
end

/-! ## Audit ledger (`src/core/audit_log.rs`)

The log file is modelled as the list of its records in file order; an
append writes one line holding the serialization of one record, so the
serialized line of record `i` is `jsonString (entryToJson record_i)`.
Timestamps (`Utc::now`) and the actor (environment lookup) are inputs. -/

structure AuditResult where
  success : Bool
  error : Option String
deriving DecidableEq, Repr

structure AuditEntry where
  timestamp : String
  action : String
  actor : String
  credential : String
  metadata_only : Bool
  prev_hash : Option String
  reason : Option String
  result : Option AuditResult
  output_mode : Option String
  target_path : Option String
  with_key : Option String
  tpm2_pcrs : Option String
  service_context : Option String
  entry_hash : Option String
  hash_version : Option Nat
deriving DecidableEq, Repr

inductive LogLine where
  | blank
  | malformed
  | record (e : AuditEntry)
deriving Repr

/-- The records of a line list, in order (blank and malformed lines are
skipped, never fatal). -/
def parsedRecords (lines : List LogLine) : List AuditEntry :=
  lines.filterMap (fun l => match l with | .record e => some e | _ => none)

/-- `read_log`: a missing file is zero records; with a limit, only the last
`limit` records are kept (`split_off(len - limit)`), in insertion order. -/
def read_log (file : Option (List LogLine)) (limit : Option Nat) : List AuditEntry :=
  match file with
  | none => []
  | some lines =>
    let entries := parsedRecords lines
    match limit with
    | some n => if entries.length > n then entries.drop (entries.length - n) else entries
    | none => entries

structure CredentialMeta where
  name : String
  description : Option String
  created_at : Option String
  rotated_at : Option String
  encryption_key : Option String
  tags : List String
  services : List String
deriving DecidableEq, Repr

/-- `CredentialMeta::default()`. -/
def credentialMetaDefault : CredentialMeta :=
  { name := "", description := none, created_at := none, rotated_at := none,
    encryption_key := none, tags := [], services := [] }

structure VaultSection where
  version : Nat
  credstore_path : Option String
deriving DecidableEq, Repr

/-- `VaultSection::default()`. -/
def vaultSectionDefault : VaultSection := { version := 1, credstore_path := none }

structure VaultFile where
  vault : VaultSection
  credentials : List CredentialMeta
deriving DecidableEq, Repr

/-- `VaultFile::default()`. -/
def vaultFileDefault : VaultFile := { vault := vaultSectionDefault, credentials := [] }

inductive TomlValue where
  | str (s : String)
  | int (n : Nat)
  | strArray (xs : List String)
deriving DecidableEq, Repr

/-- The structured form of the `vault.toml` text: the `[vault]` table and
the `[[credentials]]` array of tables. -/
structure TomlDoc where
  vault : List (String × TomlValue)
  credentials : List (List (String × TomlValue))
deriving DecidableEq, Repr

/-- `None` fields are skipped by the `toml` serializer. -/
def optToml (k : String) : Option TomlValue → List (String × TomlValue)
  | none => []
  | some v => [(k, v)]

/-- Serialization of one credential table, fields in declaration order. -/
def metaToToml (m : CredentialMeta) : List (String × TomlValue) :=
  [("name", .str m.name)]
  ++ optToml "description" (m.description.map .str)
  ++ optToml "created_at" (m.created_at.map .str)
  ++ optToml "rotated_at" (m.rotated_at.map .str)
  ++ optToml "encryption_key" (m.encryption_key.map .str)
  ++ [("tags", .strArray m.tags), ("services", .strArray m.services)]

/-- `toml::to_string_pretty(vault)`: the document `save` writes. -/
def vaultToToml (v : VaultFile) : TomlDoc :=
  { vault := [("version", .int v.vault.version)]
      ++ optToml "credstore_path" (v.vault.credstore_path.map .str),
    credentials := v.credentials.map metaToToml }

/-- First value bound to a key in a table. -/
def lookupToml (fs : List (String × TomlValue)) (k : String) : Option TomlValue :=
  (fs.find? (fun p => p.1 == k)).map (fun p => p.2)

/-- Deserialize an optional string field: absent means `None`, a non-string
value is a type error. -/
def parseOptStr (fs : List (String × TomlValue)) (k : String) : Option (Option String) :=
  match lookupToml fs k with
  | none => some none
  | some (.str s) => some (some s)
  | some _ => none

/-- Deserialize a string-array field with `#[serde(default)]`. -/
def parseStrList (fs : List (String × TomlValue)) (k : String) : Option (List String) :=
  match lookupToml fs k with
  | none => some []
  | some (.strArray xs) => some xs
  | some _ => none

/-- Deserialize one credential table (`name` is required, the rest are
optional or defaulted). -/
def parseMeta (fs : List (String × TomlValue)) : Option CredentialMeta :=
  match lookupToml fs "name" with
  | some (.str name) =>
    match parseOptStr fs "description", parseOptStr fs "created_at",
        parseOptStr fs "rotated_at", parseOptStr fs "encryption_key",
        parseStrList fs "tags", parseStrList fs "services" with
    | some d, some c, some r, some e, some t, some s =>
      some { name := name, description := d, created_at := c, rotated_at := r,
             encryption_key := e, tags := t, services := s }
    | _, _, _, _, _, _ => none
  | _ => none

/-- Deserialize the `[vault]` section (`version` defaults to 1 when absent). -/
def parseVaultSection (fs : List (String × TomlValue)) : Option VaultSection :=
  match lookupToml fs "version" with
  | none =>
    match parseOptStr fs "credstore_path" with
    | some p => some { version := 1, credstore_path := p }
    | none => none
  | some (.int n) =>
    match parseOptStr fs "credstore_path" with
    | some p => some { version := n, credstore_path := p }
    | none => none
  | some _ => none

def parseMetaList : List (List (String × TomlValue)) → Option (List CredentialMeta)
  | [] => some []
  | fs :: rest =>
    match parseMeta fs, parseMetaList rest with
    | some m, some ms => some (m :: ms)
    | _, _ => none

/-- `toml::from_str` on a document of this shape. -/
def parseVaultFile (doc : TomlDoc) : Option VaultFile :=
  match parseVaultSection doc.vault, parseMetaList doc.credentials with
  | some vs, some ms => some { vault := vs, credentials := ms }
  | _, _ => none

/-- `metadata::load`: default registry when the file is absent, a hard error
on parse failure, and a version of 0 is bumped to 1. -/
def load (file : Option TomlDoc) : Except String VaultFile :=
  match file with
  | none => .ok vaultFileDefault
  | some doc =>
    match parseVaultFile doc with
    | none => .error "parse vault metadata"
    | some v =>
      .ok (if v.vault.version = 0 then { v with vault := { v.vault with version := 1 } } else v)

/-- `metadata::save` serializes the registry; the temp-file-then-rename
mechanics make the new document the file's content. -/
def save (v : VaultFile) : TomlDoc := vaultToToml v

/-- Replace the first entry with a matching name, or append. -/
def upsertList : List CredentialMeta → CredentialMeta → List CredentialMeta
  | [], cred => [cred]
  | c :: rest, cred => if c.name = cred.name then cred :: rest else c :: upsertList rest cred

/-- Stable sort of the registry by name (`sort_by(|a, b| a.name.cmp(&b.name))`). -/
def sortCreds (creds : List CredentialMeta) : List CredentialMeta :=
  List.insertionSort (fun a b => keyLeb a.name b.name = true) creds

/-- `metadata::upsert_credential`. -/
def upsert_credential (v : VaultFile) (cred : CredentialMeta) : VaultFile :=
  { v with credentials := sortCreds (upsertList v.credentials cred) }

/-- `metadata::remove_credential`. -/
def remove_credential (v : VaultFile) (name : String) : VaultFile :=
  { v with credentials := v.credentials.filter (fun c => c.name != name) }

/-- `metadata::ensure_vault_section`. -/
def ensure_vault_section (v : VaultFile) (credstore_path : Option String) : VaultFile :=
  let vs := if v.vault.version = 0 then vaultSectionDefault else v.vault
  let vs := if vs.credstore_path = none then { vs with credstore_path := credstore_path } else vs
  { v with vault := vs }

/-! ## Credential mutation protocol (`src/cli/credential.rs`)

The on-disk state is the credential-store file map plus the persisted
`vault.toml` document. Each fallible external step (directory creation,
sealing engine, `fs::copy`, `persist`, `rename`, save I/O, …) is an injected
outcome in the operation's environment; the model sequences them exactly as
the Rust function does, so early failures return before later steps. -/

abbrev Bytes := List Nat

/-- The credential-store directory: path ↦ file bytes. -/
abbrev Files := List (String × Bytes)

/-- First entry bound to a path (`find` on the association list). -/
def lookupFile : Files → String → Option Bytes
  | [], _ => none
  | q :: rest, p => if q.1 = p then some q.2 else lookupFile rest p

def insertFile : Files → String → Bytes → Files
  | [], p, b => [(p, b)]
  | q :: rest, p, b => if q.1 = p then (p, b) :: rest else q :: insertFile rest p b

def eraseFile : Files → String → Files
  | [], _ => []
  | q :: rest, p => if q.1 = p then eraseFile rest p else q :: eraseFile rest p

structure VaultState where
  files : Files
  metaFile : Option TomlDoc
deriving DecidableEq, Repr

/-- `credstore.join(format!("{}{}", name, CRED_EXTENSION))`. -/
def credPath (credstore name : String) : String := credstore ++ "/" ++ name ++ ".cred"

/-- `credstore.join(format!("{}{}.prev", name, CRED_EXTENSION))`. -/
def prevPath (credstore name : String) : String := credstore ++ "/" ++ name ++ ".cred.prev"

/-- Order-preserving de-duplication (`HashSet::insert` filter). -/
def dedupAux (seen : List String) : List String → List String
  | [] => []
  | x :: rest =>
    if seen.contains x then dedupAux seen rest else x :: dedupAux (x :: seen) rest

def dedup (l : List String) : List String := dedupAux [] l

/-- The metadata merge shared by create and rotate (lines 611-635 /
246-269): take the existing entry or a default, fill `name`/`created_at`
once, always refresh `rotated_at` and `encryption_key`, overwrite
description/tags/services only when provided. -/
def mergeMeta (v : VaultFile) (name now withKey : String) (desc : Option String)
    (tags services : List String) : CredentialMeta :=
  let meta := ((v.credentials.find? (fun c => c.name == name)).getD credentialMetaDefault)
  let meta := if meta.name = "" then { meta with name := name } else meta
  let meta := if meta.created_at = none then { meta with created_at := some now } else meta
  let meta := { meta with rotated_at := some now, encryption_key := some withKey }
  let meta := match desc with
    | some d => { meta with description := some d }
    | none => meta
  let meta := if tags ≠ [] then { meta with tags := dedup tags } else meta
  if services ≠ [] then { meta with services := dedup services } else meta

/-- Outcome of one mutating operation: the resulting on-disk state, the
command result, and the audit appends attempted (action, credential). -/
structure MutOut where
  state : VaultState
  result : Except String Unit
  audits : List (String × String)
deriving Repr

/-! ### `run_rotate` -/

structure RotateEnv where
  credstore : String
  name : String
  tmpSecretPath : String
  tmpOutPath : String
  secretValue : String
  sealedBytes : Bytes
  timestamp : String
  withKey : String
  description : Option String
  tags : List String
  services : List String
  autoFlag : Bool
  fromStdin : Bool
  nonInteractive : Bool
  lengthArg : Nat
  minAutoLen : Option Nat
  ensureDirOk : Bool
  policyOk : Bool
  servicesAllowed : Bool
  readSecretOk : Bool
  tempWriteOk : Bool
  tmpOutCreateOk : Bool
  sealOk : Bool
  copyOk : Bool
  persistOk : Bool
  restoreRenameOk : Bool
  setPermsOk : Bool
  metaSaveOk : Bool
deriving Repr

/-- Temp files are `NamedTempFile`s: dropped (deleted) on every exit path
that has not consumed them. -/
def dropTemps (st : VaultState) (env : RotateEnv) : VaultState :=
  { st with files := eraseFile (eraseFile st.files env.tmpSecretPath) env.tmpOutPath }

/-- The tail of `run_rotate` after the optional `.prev` backup: persist the
sealed temp blob over the live path (restoring the backup if the move
fails), then permissions, metadata, audit. -/
def rotateFinish (st : VaultState) (env : RotateEnv) (final prev : String) : MutOut :=
  if !env.persistOk then
    let st :=
      match lookupFile st.files prev, env.restoreRenameOk with
      | some prevBytes, true =>
        { st with files := eraseFile (insertFile st.files final prevBytes) prev }
      | _, _ => st
    ⟨dropTemps st env, .error "persist rotated credential", []⟩
  else
  let sealed := (lookupFile st.files env.tmpOutPath).getD []
  let st := { st with files := insertFile (eraseFile st.files env.tmpOutPath) final sealed }
  if !env.setPermsOk then ⟨dropTemps st env, .error "set permissions", []⟩
  else
  match load st.metaFile with
  | .error e => ⟨dropTemps st env, .error e, []⟩
  | .ok vault0 =>
    let vault1 := ensure_vault_section vault0 (some env.credstore)
    let meta := mergeMeta vault1 env.name env.timestamp env.withKey env.description
      env.tags env.services
    let vault2 := upsert_credential vault1 meta
    if !env.metaSaveOk then ⟨dropTemps st env, .error "persist vault metadata", []⟩
    else
    let st := { st with metaFile := some (save vault2) }
    ⟨dropTemps st env, .ok (), [("rotate", env.name)]⟩

def run_rotate (st : VaultState) (env : RotateEnv) : MutOut :=
  if !env.ensureDirOk then ⟨st, .error "ensure credstore dir", []⟩
  else if !env.policyOk then ⟨st, .error "policy: host-only forbidden", []⟩
  else if !env.servicesAllowed then ⟨st, .error "policy: service not allowed", []⟩
  else if env.autoFlag && env.fromStdin then ⟨st, .error "--auto and --from-stdin", []⟩
  else if env.nonInteractive && !env.fromStdin && !env.autoFlag then
    ⟨st, .error "--non-interactive requires --from-stdin or --auto", []⟩
  else if env.autoFlag && (match env.minAutoLen with
      | some m => decide (env.lengthArg < m)
      | none => false) then
    ⟨st, .error "policy: auto-generated secret length below minimum", []⟩
  else if !env.autoFlag && !env.readSecretOk then ⟨st, .error "read secret", []⟩
  else if env.secretValue = "" then ⟨st, .error "secret is empty", []⟩
  else if !env.tempWriteOk then ⟨st, .error "write temp secret", []⟩
  else
  let st := { st with files := insertFile st.files env.tmpSecretPath (strBytes env.secretValue) }
  if !env.tmpOutCreateOk then ⟨dropTemps st env, .error "create temp output", []⟩
  else
  let st := { st with files := insertFile st.files env.tmpOutPath [] }
  if !env.sealOk then ⟨dropTemps st env, .error "encrypt", []⟩
  else
  let st := { st with files := insertFile st.files env.tmpOutPath env.sealedBytes }
  -- vault lock acquired here
  let final := credPath env.credstore env.name
  let prev := prevPath env.credstore env.name
  match lookupFile st.files final, env.copyOk with
  | some liveBytes, true =>
    let st := { st with files := insertFile st.files prev liveBytes }
    rotateFinish st env final prev
  | some _, false => ⟨dropTemps st env, .error "backup to .prev", []⟩
  | none, _ => rotateFinish st env final prev

/-! ### `run_rollback_rotate` -/

structure RollbackEnv where
  credstore : String
  name : String
  renameOk : Bool
deriving DecidableEq, Repr

def run_rollback_rotate (st : VaultState) (env : RollbackEnv) : MutOut :=
  -- vault lock acquired here
  let cred := credPath env.credstore env.name
  let prev := prevPath env.credstore env.name
  match lookupFile st.files prev with
  | none => ⟨st, .error ("no .prev backup found for '" ++ env.name ++ "' - cannot rollback"), []⟩
  | some prevBytes =>
    if !env.renameOk then ⟨st, .error "restore from .prev", []⟩
    else
    let st := { st with files := eraseFile (insertFile st.files cred prevBytes) prev }
    ⟨st, .ok (), [("rollback-rotate", env.name)]⟩

/-! ### `run_delete` -/

structure DeleteEnv where
  credstore : String
  name : String
  removeOk : Bool
  metaSaveOk : Bool
deriving DecidableEq, Repr

def run_delete (st : VaultState) (env : DeleteEnv) : MutOut :=
  let cred := credPath env.credstore env.name
  match lookupFile st.files cred with
  | none => ⟨st, .error ("credential not found: " ++ cred), []⟩
  | some _ =>
    -- vault lock acquired here
    if !env.removeOk then ⟨st, .error "remove credential file", []⟩
    else
    let st := { st with files := eraseFile st.files cred }
    let audits := [("delete", env.name)]
    match st.metaFile with
    | none => ⟨st, .ok (), audits⟩
    | some _ =>
      match load st.metaFile with
      | .error e => ⟨st, .error e, audits⟩
      | .ok vault0 =>
        let vault1 := remove_credential vault0 env.name
        if !env.metaSaveOk then ⟨st, .error "persist vault metadata", audits⟩
        else ⟨{ st with metaFile := some (save vault1) }, .ok (), audits⟩

/-! ### `run_create`

Create is modelled as its ordered event trace (plus result and audit
appends): the claims about it concern which steps run under the vault lock
and when the audit append happens. The lock is released when its handle
drops, at every exit path after acquisition. -/

inductive Event where
  | ensureDir
  | writeTempSecret
  | seal
  | setPerms
  | lockAcquire
  | lockRelease
  | metaLoad
  | metaSave
  | auditAppend
deriving DecidableEq, Repr

structure CreateEnv where
  name : String
  nonInteractive : Bool
  fromStdin : Bool
  ensureDirOk : Bool
  policyOk : Bool
  servicesAllowed : Bool
  readSecretOk : Bool
  tempWriteOk : Bool
  sealOk : Bool
  setPermsOk : Bool
  metaLoadOk : Bool
  metaSaveOk : Bool
deriving DecidableEq, Repr

structure TraceOut where
  events : List Event
  result : Except String Unit
  audits : List (String × String)
deriving Repr

def run_create (env : CreateEnv) : TraceOut :=
  let ev := [Event.ensureDir]
  if !env.ensureDirOk then ⟨ev, .error "ensure credstore dir", []⟩
  else if !env.policyOk then ⟨ev, .error "policy: host-only forbidden", []⟩
  else if !env.servicesAllowed then ⟨ev, .error "policy: service not allowed", []⟩
  else if env.nonInteractive && !env.fromStdin then
    ⟨ev, .error "--non-interactive requires --from-stdin for create", []⟩
  else if !env.readSecretOk then ⟨ev, .error "read secret", []⟩
  else
  let ev := ev ++ [Event.writeTempSecret]
  if !env.tempWriteOk then ⟨ev, .error "write temp secret", []⟩
  else
  let ev := ev ++ [Event.seal]
  if !env.sealOk then ⟨ev, .error "encrypt", []⟩
  else
  let ev := ev ++ [Event.setPerms]
  if !env.setPermsOk then ⟨ev, .error "set permissions", []⟩
  else
  let ev := ev ++ [Event.lockAcquire, Event.metaLoad]
  if !env.metaLoadOk then ⟨ev ++ [Event.lockRelease], .error "parse vault metadata", []⟩
  else
  let ev := ev ++ [Event.metaSave]
  if !env.metaSaveOk then ⟨ev ++ [Event.lockRelease], .error "persist vault metadata", []⟩
  else
  ⟨ev ++ [Event.auditAppend, Event.lockRelease], .ok (), [("create", env.name)]⟩

/-- Whether some occurrence of `target` in the trace happens while the vault
lock is held (scanning with the current lock depth). -/
def underLock (target : Event) : List Event → Nat → Bool
  | [], _ => false
  | e :: rest, d =>
    let d' := if e = Event.lockAcquire then d + 1 else if e = Event.lockRelease then d - 1 else d
    if e = target then decide (d > 0) || underLock target rest d' else underLock target rest d'

/-! ### `parse_credential_name` (`src/cli/credential.rs` lines 21-35) -/

/-- `s.contains("..")` on the character list. -/
def hasDotDot : List Char → Bool
  | [] => false
  | [_] => false
  | a :: b :: rest => (a = '.' && b = '.') || hasDotDot (b :: rest)

/-- The allowed character set `[A-Za-z0-9._-]`. -/
def allowedChar (c : Char) : Bool :=
  (c.isAlpha || c.isDigit) || c = '.' || c = '_' || c = '-'

def parse_credential_name (s : String) : Except String String :=
  if s.isEmpty then .error "name cannot be empty"
  else if hasDotDot s.data then .error "path traversal not allowed"
  else if !(s.data.all allowedChar) then .error "only [a-zA-Z0-9._-] allowed"
  else .ok s

/-! ## Concrete sample data (used to instantiate theorems with hypotheses) -/

/-- A v1-style record without hashes. -/
def sampleEntry (a : String) : AuditEntry :=
  { timestamp := "2025-01-01T00:00:00Z", action := a, actor := "tester", credential := "db",
    metadata_only := true, prev_hash := none, reason := none, result := none,
    output_mode := none, target_path := none, with_key := none, tpm2_pcrs := none,
    service_context := none, entry_hash := none, hash_version := none }

/-- A log file with three parseable records among blank and malformed lines. -/
def sampleLines : List LogLine :=
  [.record (sampleEntry "a1"), .blank, .malformed, .record (sampleEntry "a2"),
   .record (sampleEntry "a3")]

/-- A store holding one live blob and its rotation backup. -/
def sampleState : VaultState :=
  { files := [(credPath "/opt/vault/credstore" "db", [10, 20]),
              (prevPath "/opt/vault/credstore" "db", [30, 40])],
    metaFile := none }

def sampleRollbackEnv : RollbackEnv :=
  { credstore := "/opt/vault/credstore", name := "db", renameOk := true }

def sampleRotateEnv : RotateEnv :=
  { credstore := "/opt/vault/credstore", name := "db",
    tmpSecretPath := "/opt/vault/credstore/.secret-Xq3v", tmpOutPath := "/opt/vault/credstore/cred-Yk8w.cred.tmp",
    secretValue := "hunter2", sealedBytes := [9, 9, 9], timestamp := "2025-01-02T00:00:00Z",
    withKey := "host+tpm2", description := none, tags := [], services := [],
    autoFlag := false, fromStdin := true, nonInteractive := true, lengthArg := 32,
    minAutoLen := none, ensureDirOk := true, policyOk := true, servicesAllowed := true,
    readSecretOk := true, tempWriteOk := true, tmpOutCreateOk := true, sealOk := true,
    copyOk := true, persistOk := false, restoreRenameOk := true, setPermsOk := true,
    metaSaveOk := true }

/-- A create invocation in which every step succeeds. -/
def happyCreateEnv : CreateEnv :=
  { name := "db", nonInteractive := false, fromStdin := true, ensureDirOk := true,
    policyOk := true, servicesAllowed := true, readSecretOk := true, tempWriteOk := true,
    sealOk := true, setPermsOk := true, metaLoadOk := true, metaSaveOk := true }

/-- A create invocation in which the sealing engine fails. -/
def sealFailCreateEnv : CreateEnv := { happyCreateEnv with sealOk := false }

/-- The object written `{"b":1,"a":2}`. -/
def jObjBA : Json := .obj (JObj.ofList [("b", .num 1), ("a", .num 2)])

/-- The object written `{"a":2,"b":1}`. -/
def jObjAB : Json := .obj (JObj.ofList [("a", .num 2), ("b", .num 1)])

/-! ## Helper lemmas -/

theorem hasDotDot_iff (l : List Char) :
    hasDotDot l = true ↔ ∃ l1 l2 : List Char, l = l1 ++ '.' :: '.' :: l2 := by
  induction l using hasDotDot.induct with
  | case1 =>
    simp only [hasDotDot, Bool.false_eq_true, false_iff]
    rintro ⟨l1, l2, heq⟩
    have := congrArg List.length heq
    simp [List.length_append] at this
    omega
  | case2 c =>
    simp only [hasDotDot, Bool.false_eq_true, false_iff]
    rintro ⟨l1, l2, heq⟩
    have := congrArg List.length heq
    simp [List.length_append] at this
    omega
  | case3 a b rest ih =>
    rw [hasDotDot]
    simp only [Bool.or_eq_true, Bool.and_eq_true, decide_eq_true_eq]
    constructor
    · rintro (⟨rfl, rfl⟩ | h)
      · exact ⟨[], rest, rfl⟩
      · obtain ⟨l1, l2, heq⟩ := ih.mp h
        exact ⟨a :: l1, l2, by simp [heq]⟩
    · rintro ⟨l1, l2, heq⟩
      match l1, heq with
      | [], heq =>
        simp only [List.nil_append, List.cons.injEq] at heq
        exact Or.inl ⟨heq.1, heq.2.1⟩
      | [x], heq =>
        simp only [List.cons_append, List.nil_append, List.cons.injEq] at heq
        refine Or.inr (ih.mpr ⟨[], l2, ?_⟩)
        simp [heq.2.1, heq.2.2]
      | x :: y :: l1', heq =>
        simp only [List.cons_append, List.cons.injEq] at heq
        refine Or.inr (ih.mpr ⟨y :: l1', l2, ?_⟩)
        simp [heq.2.1, heq.2.2]

theorem lookupFile_insertFile_self (fs : Files) (p : String) (b : Bytes) :
    lookupFile (insertFile fs p b) p = some b := by
  induction fs with
  | nil => simp [insertFile, lookupFile]
  | cons q rest ih =>
    by_cases h : q.1 = p
    · simp [insertFile, h, lookupFile]
    · simpa [insertFile, h, lookupFile] using ih

theorem lookupFile_insertFile_ne (fs : Files) (p q : String) (b : Bytes) (h : q ≠ p) :
    lookupFile (insertFile fs p b) q = lookupFile fs q := by
  have hpq : p ≠ q := fun hh => h hh.symm
  induction fs with
  | nil => simp [insertFile, lookupFile, hpq]
  | cons r rest ih =>
    by_cases hr : r.1 = p
    · rw [insertFile, if_pos hr, lookupFile, if_neg hpq, lookupFile,
        if_neg (show r.1 ≠ q from fun hh => hpq (hr.symm.trans hh))]
    · rw [insertFile, if_neg hr, lookupFile, lookupFile]
      by_cases hq : r.1 = q
      · rw [if_pos hq, if_pos hq]
      · rw [if_neg hq, if_neg hq]
        exact ih

theorem lookupFile_eraseFile_self (fs : Files) (p : String) :
    lookupFile (eraseFile fs p) p = none := by
  induction fs with
  | nil => simp [eraseFile, lookupFile]
  | cons q rest ih =>
    by_cases h : q.1 = p
    · simpa [eraseFile, h] using ih
    · simpa [eraseFile, lookupFile, h] using ih

theorem lookupFile_eraseFile_ne (fs : Files) (p q : String) (h : q ≠ p) :
    lookupFile (eraseFile fs p) q = lookupFile fs q := by
  induction fs with
  | nil => simp [eraseFile]
  | cons r rest ih =>
    by_cases hr : r.1 = p
    · have hq : r.1 ≠ q := fun hh => h (hh.symm.trans hr)
      rw [eraseFile, if_pos hr, lookupFile, if_neg hq]
      exact ih
    · rw [eraseFile, if_neg hr, lookupFile, lookupFile]
      by_cases hq : r.1 = q
      · rw [if_pos hq, if_pos hq]
      · rw [if_neg hq, if_neg hq]
        exact ih

theorem string_data_nil (s : String) (h : s.data = []) : s = "" := by
  rcases s with ⟨l⟩
  cases h
  rfl

theorem allowedChar_iff (c : Char) : allowedChar c = true ↔
    ((c.isAlpha || c.isDigit) = true ∨ c = '.' ∨ c = '_' ∨ c = '-') := by
  unfold allowedChar
  simp only [Bool.or_eq_true, decide_eq_true_eq]
  tauto

theorem string_data_nil_iff (s : String) : s.data = [] ↔ s = "" := by
  constructor
  · exact string_data_nil s
  · intro h; rw [h]

/-! ## C10 — credential-name validation -/

/-- C10: `parse_credential_name` rejects `".."` itself (path traversal),
and succeeds exactly on non-empty names that contain no `".."` substring
and whose characters all lie in `[A-Za-z0-9._-]`. -/
theorem parse_credential_name_spec :
    parse_credential_name ".." = .error "path traversal not allowed" ∧
    (∀ s : String, parse_credential_name s = .ok s ↔
      (s.data ≠ [] ∧ (¬ ∃ l1 l2 : List Char, s.data = l1 ++ '.' :: '.' :: l2) ∧
        ∀ c ∈ s.data, (c.isAlpha || c.isDigit) = true ∨ c = '.' ∨ c = '_' ∨ c = '-')) := by
  refine ⟨by rfl, fun s => ?_⟩
  unfold parse_credential_name
  by_cases h1 : s.isEmpty
  · have hs : s = "" := (String.isEmpty_iff s).mp h1
    subst hs
    rw [if_pos h1]
    constructor
    · intro h; cases h
    · rintro ⟨hne, -, -⟩; exact absurd rfl hne
  · rw [if_neg h1]
    by_cases h2 : hasDotDot s.data
    · rw [if_pos h2]
      constructor
      · intro h; cases h
      · rintro ⟨-, hnd, -⟩
        exact absurd ((hasDotDot_iff s.data).mp h2) hnd
    · rw [if_neg h2]
      by_cases h3 : s.data.all allowedChar
      · rw [if_neg (show ¬ ((!(s.data.all allowedChar)) = true) by rw [h3]; simp)]
        constructor
        · intro _
          exact ⟨fun hd => h1 ((String.isEmpty_iff s).mpr (string_data_nil s hd)),
            fun hsplit => h2 ((hasDotDot_iff s.data).mpr hsplit),
            fun c hc => (allowedChar_iff c).mp (List.all_eq_true.mp h3 c hc)⟩
        · intro _; rfl
      · have h3' : s.data.all allowedChar = false := by
          revert h3; cases s.data.all allowedChar <;> simp
        rw [if_pos (show (!(s.data.all allowedChar)) = true by rw [h3']; rfl)]
        constructor
        · intro h; cases h
        · rintro ⟨-, -, hall⟩
          exact absurd (List.all_eq_true.mpr fun c hc => (allowedChar_iff c).mpr (hall c hc)) h3

/-! ## C7 — tail-limited reads -/

/-- C7: on a log whose lines hold more than `N` parseable records, a read
with limit `N` returns exactly `N` records — the final `N`, in insertion
order (the parsed list is that suffix of the full list); with no limit all
records come back in order, and a missing file reads as zero records. -/
theorem read_log_spec (lines : List LogLine) (N : Nat)
    (h : N < (parsedRecords lines).length) :
    read_log (some lines) (some N) =
      (parsedRecords lines).drop ((parsedRecords lines).length - N) ∧
    (read_log (some lines) (some N)).length = N ∧
    parsedRecords lines =
      (parsedRecords lines).take ((parsedRecords lines).length - N) ++
        read_log (some lines) (some N) ∧
    read_log (some lines) none = parsedRecords lines ∧
    (∀ lim, read_log none lim = []) := by
  have hgt : (parsedRecords lines).length > N := h
  have hdrop : read_log (some lines) (some N) =
      (parsedRecords lines).drop ((parsedRecords lines).length - N) := by
    simp only [read_log]
    rw [if_pos hgt]
  refine ⟨hdrop, ?_, ?_, rfl, fun lim => rfl⟩
  · rw [hdrop, List.length_drop]
    omega
  · rw [hdrop, List.take_append_drop]

theorem read_log_spec_witness :
    2 < (parsedRecords sampleLines).length ∧
    (read_log (some sampleLines) (some 2)).length = 2 :=
  ⟨by decide, (read_log_spec sampleLines 2 (by decide)).2.1⟩

/-! ## C9 — metadata save/load round-trip -/

theorem parseMeta_metaToToml (m : CredentialMeta) : parseMeta (metaToToml m) = some m := by
  rcases m with ⟨name, desc, ca, ra, ek, tags, svcs⟩
  cases desc <;> cases ca <;> cases ra <;> cases ek <;>
    simp [parseMeta, metaToToml, optToml, parseOptStr, parseStrList, lookupToml, List.find?]

theorem parseMetaList_map (ms : List CredentialMeta) :
    parseMetaList (ms.map metaToToml) = some ms := by
  induction ms with
  | nil => rfl
  | cons m rest ih => simp [parseMetaList, parseMeta_metaToToml, ih]

theorem parseVaultFile_vaultToToml (v : VaultFile) : parseVaultFile (vaultToToml v) = some v := by
  rcases v with ⟨⟨ver, cp⟩, creds⟩
  cases cp <;>
    simp [parseVaultFile, vaultToToml, parseVaultSection, optToml, lookupToml, List.find?,
      parseOptStr, parseMetaList_map]

/-- C9: saving a registry and loading it back yields a registry whose
credential entries are exactly those saved and whose version is at least 1. -/
theorem save_load_roundtrip (v : VaultFile) :
    ∃ v' : VaultFile, load (some (save v)) = .ok v' ∧
      v'.credentials = v.credentials ∧ 1 ≤ v'.vault.version := by
  refine ⟨if v.vault.version = 0 then { v with vault := { v.vault with version := 1 } } else v,
    ?_, ?_, ?_⟩
  · simp only [load, save, parseVaultFile_vaultToToml]
  · by_cases h : v.vault.version = 0 <;> simp [h]
  · by_cases h : v.vault.version = 0
    · simp [h]
    · simp only [if_neg h]
      omega

/-! ## C6 — rollback semantics -/

theorem credPath_ne_prevPath (cs n : String) : credPath cs n ≠ prevPath cs n := by
  intro h
  have hl := congrArg String.length h
  simp only [credPath, prevPath, String.length_append] at hl
  have h5 : ".cred".length = 5 := rfl
  have h10 : ".cred.prev".length = 10 := rfl
  omega

/-- C6: rollback with no `.prev` backup fails with the not-found error and
changes nothing; with a backup present it renames the backup over the live
blob (consuming it, so an immediate second rollback fails); the metadata
registry is never touched by rollback. -/
theorem run_rollback_rotate_spec (st : VaultState) (env : RollbackEnv) :
    (lookupFile st.files (prevPath env.credstore env.name) = none →
      (run_rollback_rotate st env).state = st ∧
      (run_rollback_rotate st env).result =
        .error ("no .prev backup found for '" ++ env.name ++ "' - cannot rollback")) ∧
    (∀ b, lookupFile st.files (prevPath env.credstore env.name) = some b →
      env.renameOk = true →
      (run_rollback_rotate st env).result = .ok () ∧
      lookupFile (run_rollback_rotate st env).state.files (credPath env.credstore env.name) =
        some b ∧
      lookupFile (run_rollback_rotate st env).state.files (prevPath env.credstore env.name) =
        none ∧
      ∃ msg, (run_rollback_rotate (run_rollback_rotate st env).state env).result =
        .error msg) ∧
    (run_rollback_rotate st env).state.metaFile = st.metaFile := by
  refine ⟨?_, ?_, ?_⟩
  · intro hnone
    simp [run_rollback_rotate, hnone]
  · intro b hsome hok
    have hprev :
        lookupFile
          (eraseFile (insertFile st.files (credPath env.credstore env.name) b)
            (prevPath env.credstore env.name))
          (prevPath env.credstore env.name) = none :=
      lookupFile_eraseFile_self _ _
    refine ⟨?_, ?_, ?_, ?_⟩
    · simp [run_rollback_rotate, hsome, hok]
    · simp only [run_rollback_rotate, hsome, hok, Bool.not_true, Bool.false_eq_true,
        if_false]
      rw [lookupFile_eraseFile_ne _ _ _ (credPath_ne_prevPath env.credstore env.name),
        lookupFile_insertFile_self]
    · simp only [run_rollback_rotate, hsome, hok, Bool.not_true, Bool.false_eq_true,
        if_false]
      exact hprev
    · refine ⟨"no .prev backup found for '" ++ env.name ++ "' - cannot rollback", ?_⟩
      simp only [run_rollback_rotate, hsome, hok, Bool.not_true, Bool.false_eq_true,
        if_false]
      simp [hprev]
  · rcases hl : lookupFile st.files (prevPath env.credstore env.name) with - | b
    · simp [run_rollback_rotate, hl]
    · cases hok : env.renameOk <;> simp [run_rollback_rotate, hl, hok]

theorem run_rollback_rotate_spec_witness :
    (run_rollback_rotate sampleState sampleRollbackEnv).result = .ok () ∧
    lookupFile (run_rollback_rotate sampleState sampleRollbackEnv).state.files
      (credPath "/opt/vault/credstore" "db") = some [30, 40] :=
  ⟨((run_rollback_rotate_spec sampleState sampleRollbackEnv).2.1 [30, 40] (by decide)
      (by decide)).1,
   ((run_rollback_rotate_spec sampleState sampleRollbackEnv).2.1 [30, 40] (by decide)
      (by decide)).2.1⟩

/-! ## C3 — rotation is restored when the final move fails -/

/-- C3: when a live blob exists, the pre-persist steps succeed and the
final atomic move of the sealed temp blob fails, the rotate surfaces the
persist error, the live blob's bytes equal the pre-rotation bytes, and no
metadata registry change is persisted — whether or not the compensating
restore rename itself succeeds, because the failed move never touched the
live path and the `.prev` copy holds the same bytes. -/
theorem run_rotate_restore_on_failed_persist (st : VaultState) (env : RotateEnv) (b : Bytes)
    (hEnsure : env.ensureDirOk = true) (hPolicy : env.policyOk = true)
    (hSvc : env.servicesAllowed = true)
    (hAutoStdin : (env.autoFlag && env.fromStdin) = false)
    (hNonInt : (env.nonInteractive && !env.fromStdin && !env.autoFlag) = false)
    (hMinLen : (env.autoFlag && (match env.minAutoLen with
        | some m => decide (env.lengthArg < m)
        | none => false)) = false)
    (hRead : (!env.autoFlag && !env.readSecretOk) = false)
    (hSecret : env.secretValue ≠ "")
    (hTempW : env.tempWriteOk = true) (hTmpOut : env.tmpOutCreateOk = true)
    (hSeal : env.sealOk = true) (hCopy : env.copyOk = true)
    (hPersist : env.persistOk = false)
    (hlive : lookupFile st.files (credPath env.credstore env.name) = some b)
    (hts1 : env.tmpSecretPath ≠ credPath env.credstore env.name)
    (hto1 : env.tmpOutPath ≠ credPath env.credstore env.name) :
    (run_rotate st env).result = .error "persist rotated credential" ∧
    lookupFile (run_rotate st env).state.files (credPath env.credstore env.name) = some b ∧
    (run_rotate st env).state.metaFile = st.metaFile := by
  have hc1 : credPath env.credstore env.name ≠ env.tmpSecretPath := Ne.symm hts1
  have hc2 : credPath env.credstore env.name ≠ env.tmpOutPath := Ne.symm hto1
  have hcp : credPath env.credstore env.name ≠ prevPath env.credstore env.name :=
    credPath_ne_prevPath env.credstore env.name
  have hlook3 :
      lookupFile
        (insertFile (insertFile (insertFile st.files env.tmpSecretPath
            (strBytes env.secretValue)) env.tmpOutPath []) env.tmpOutPath env.sealedBytes)
        (credPath env.credstore env.name) = some b := by
    rw [lookupFile_insertFile_ne _ _ _ _ hc2, lookupFile_insertFile_ne _ _ _ _ hc2,
      lookupFile_insertFile_ne _ _ _ _ hc1, hlive]
  simp only [run_rotate, hEnsure, hPolicy, hSvc, hAutoStdin, hNonInt, hMinLen, hRead,
    hTempW, hTmpOut, hSeal, hCopy, hPersist, Bool.not_true, Bool.false_eq_true, if_false,
    Bool.true_eq_false, if_neg hSecret, hlook3]
  simp only [rotateFinish, hPersist, Bool.not_false, if_true, lookupFile_insertFile_self,
    dropTemps]
  cases hres : env.restoreRenameOk
  · refine ⟨by trivial, ?_, by trivial⟩
    rw [lookupFile_eraseFile_ne _ _ _ hc2, lookupFile_eraseFile_ne _ _ _ hc1,
      lookupFile_insertFile_ne _ _ _ _ hcp, hlook3]
  · refine ⟨by trivial, ?_, by trivial⟩
    rw [lookupFile_eraseFile_ne _ _ _ hc2, lookupFile_eraseFile_ne _ _ _ hc1,
      lookupFile_eraseFile_ne _ _ _ hcp, lookupFile_insertFile_self]

theorem run_rotate_restore_witness :
    (run_rotate sampleState sampleRotateEnv).result = .error "persist rotated credential" ∧
    lookupFile (run_rotate sampleState sampleRotateEnv).state.files
      (credPath "/opt/vault/credstore" "db") = some [10, 20] ∧
    (run_rotate sampleState sampleRotateEnv).state.metaFile = sampleState.metaFile :=
  run_rotate_restore_on_failed_persist sampleState sampleRotateEnv [10, 20]
    rfl rfl rfl rfl rfl rfl rfl (by decide) rfl rfl rfl rfl rfl (by decide)
    (by decide) (by decide)

/-! ## C5 — what runs under the vault lock in create -/

/-- C5 counterexample: on a fully successful create, the trace contains the
sealing-engine call, but it does not occur while the vault lock is held —
the lock is only acquired afterwards, for the metadata phase. -/
theorem create_seal_outside_lock_counterexample :
    (run_create happyCreateEnv).events.contains Event.seal = true ∧
    underLock Event.seal (run_create happyCreateEnv).events 0 = false := by
  decide

/-- The seven possible event traces of a create invocation. -/
theorem run_create_events_mem (env : CreateEnv) :
    (run_create env).events ∈
      [[Event.ensureDir],
       [Event.ensureDir, Event.writeTempSecret],
       [Event.ensureDir, Event.writeTempSecret, Event.seal],
       [Event.ensureDir, Event.writeTempSecret, Event.seal, Event.setPerms],
       [Event.ensureDir, Event.writeTempSecret, Event.seal, Event.setPerms,
        Event.lockAcquire, Event.metaLoad, Event.lockRelease],
       [Event.ensureDir, Event.writeTempSecret, Event.seal, Event.setPerms,
        Event.lockAcquire, Event.metaLoad, Event.metaSave, Event.lockRelease],
       [Event.ensureDir, Event.writeTempSecret, Event.seal, Event.setPerms,
        Event.lockAcquire, Event.metaLoad, Event.metaSave, Event.auditAppend,
        Event.lockRelease]] := by
  unfold run_create
  cases env.ensureDirOk
  · simp
  cases env.policyOk
  · simp
  cases env.servicesAllowed
  · simp
  cases henv : env.nonInteractive && !env.fromStdin
  case true => simp [henv]
  cases env.readSecretOk
  · simp [henv]
  cases env.tempWriteOk
  · simp [henv]
  cases env.sealOk
  · simp [henv]
  cases env.setPermsOk
  · simp [henv]
  cases env.metaLoadOk
  · simp [henv]
  cases env.metaSaveOk
  · simp [henv]
  · simp [henv]

/-- C5 amended: in every create invocation the sealing-engine call (like
the temp-secret write and the blob permission change) runs before the vault
lock is acquired, never under it; only the metadata load/merge/save phase —
whenever it is reached — runs while the vault lock is held. -/
theorem create_lock_discipline :
    (∀ env : CreateEnv, underLock Event.seal (run_create env).events 0 = false) ∧
    (∀ env : CreateEnv, underLock Event.writeTempSecret (run_create env).events 0 = false) ∧
    (∀ env : CreateEnv, underLock Event.setPerms (run_create env).events 0 = false) ∧
    (∀ env : CreateEnv,
      (run_create env).events.contains Event.metaLoad = true →
      underLock Event.metaLoad (run_create env).events 0 = true) ∧
    (∀ env : CreateEnv,
      (run_create env).events.contains Event.metaSave = true →
      underLock Event.metaSave (run_create env).events 0 = true) := by
  refine ⟨?_, ?_, ?_, ?_, ?_⟩ <;>
    (intro env
     have hmem := run_create_events_mem env
     simp only [List.mem_cons, List.not_mem_nil, or_false] at hmem
     rcases hmem with h | h | h | h | h | h | h <;> rw [h] <;> decide)

theorem create_lock_discipline_witness :
    underLock Event.seal (run_create happyCreateEnv).events 0 = false ∧
    underLock Event.metaSave (run_create happyCreateEnv).events 0 = true :=
  ⟨create_lock_discipline.1 happyCreateEnv,
   create_lock_discipline.2.2.2.2 happyCreateEnv (by decide)⟩

/-! ## C4 — audit appends of the mutating operations -/

/-- C4 counterexample: a create whose sealing-engine call fails completes
(with an error) without attempting any audit append, not exactly one. -/
theorem create_failure_audit_counterexample :
    (run_create sealFailCreateEnv).result = .error "encrypt" ∧
    (run_create sealFailCreateEnv).audits = [] ∧
    ¬ ((run_create sealFailCreateEnv).audits.length = 1) :=
  ⟨rfl, rfl, by decide⟩

theorem rotateFinish_audits (st : VaultState) (env : RotateEnv) (final prev : String) :
    (rotateFinish st env final prev).audits =
      if (rotateFinish st env final prev).result.isOk then [("rotate", env.name)] else [] := by
  unfold rotateFinish
  cases env.persistOk
  · rfl
  cases env.setPermsOk
  · rfl
  dsimp only
  rcases load st.metaFile with e | v
  · rfl
  cases env.metaSaveOk
  · rfl
  · rfl

/-- C4 amended: each mutating operation attempts at most one audit append,
recording only the action and credential name (no outcome field). Create,
rotate and rollback append exactly when they succeed and never on failure;
delete appends once the blob removal has succeeded, even if the subsequent
metadata update then fails. -/
theorem mutations_audit_once :
    (∀ env : CreateEnv, (run_create env).audits =
      if (run_create env).result.isOk then [("create", env.name)] else []) ∧
    (∀ (st : VaultState) (env : RotateEnv), (run_rotate st env).audits =
      if (run_rotate st env).result.isOk then [("rotate", env.name)] else []) ∧
    (∀ (st : VaultState) (env : RollbackEnv), (run_rollback_rotate st env).audits =
      if (run_rollback_rotate st env).result.isOk then [("rollback-rotate", env.name)]
      else []) ∧
    (∀ (st : VaultState) (env : DeleteEnv), (run_delete st env).audits =
      if ((lookupFile st.files (credPath env.credstore env.name)).isSome && env.removeOk)
      then [("delete", env.name)] else []) := by
  refine ⟨?_, ?_, ?_, ?_⟩
  · intro env
    unfold run_create
    cases env.ensureDirOk
    · rfl
    cases env.policyOk
    · rfl
    cases env.servicesAllowed
    · rfl
    cases env.nonInteractive && !env.fromStdin
    case true => rfl
    cases env.readSecretOk
    · rfl
    cases env.tempWriteOk
    · rfl
    cases env.sealOk
    · rfl
    cases env.setPermsOk
    · rfl
    cases env.metaLoadOk
    · rfl
    cases env.metaSaveOk
    · rfl
    · rfl
  · intro st env
    unfold run_rotate
    cases env.ensureDirOk
    · rfl
    cases env.policyOk
    · rfl
    cases env.servicesAllowed
    · rfl
    cases env.autoFlag && env.fromStdin
    case true => rfl
    cases env.nonInteractive && !env.fromStdin && !env.autoFlag
    case true => rfl
    cases env.autoFlag && (match env.minAutoLen with
      | some m => decide (env.lengthArg < m)
      | none => false)
    case true => rfl
    cases !env.autoFlag && !env.readSecretOk
    case true => rfl
    by_cases hsec : env.secretValue = ""
    · rw [if_pos hsec]
      rfl
    · rw [if_neg hsec]
      cases env.tempWriteOk
      · rfl
      cases env.tmpOutCreateOk
      · rfl
      cases env.sealOk
      · rfl
      simp only [Bool.not_true, Bool.false_eq_true, if_false]
      split
      · exact rotateFinish_audits _ _ _ _
      · rfl
      · exact rotateFinish_audits _ _ _ _
  · intro st env
    rcases hl : lookupFile st.files (prevPath env.credstore env.name) with - | b
    · simp only [run_rollback_rotate, hl]
      rfl
    · cases hok : env.renameOk <;> simp only [run_rollback_rotate, hl, hok] <;> rfl
  · intro st env
    rcases hl : lookupFile st.files (credPath env.credstore env.name) with - | b
    · simp [run_delete, hl]
    · cases hrm : env.removeOk
      · simp [run_delete, hl, hrm]
      · simp only [run_delete, hl, hrm, Option.isSome_some, Bool.and_true, Bool.not_true,
          Bool.false_eq_true, if_false, if_true]
        rcases st.metaFile with - | doc
        · rfl
        · rcases hld : load (some doc) with e | v
          · simp [hld]
          · simp [hld]
            split <;> rfl

/-! ## C2 — the chain verifies clean after every append -/

theorem toList_ofList (l : List (String × Json)) : JObj.toList (JObj.ofList l) = l := by
  induction l with
  | nil => rfl
  | cons p rest ih =>
    cases p
    simp [JObj.ofList, JObj.toList, ih]

theorem charsLe_total : ∀ a b : List Char, charsLe a b = true ∨ charsLe b a = true := by
  intro a
  induction a with
  | nil => intro b; left; rfl
  | cons x xs ih =>
    intro b
    cases b with
    | nil => right; rfl
    | cons y ys =>
      unfold charsLe
      by_cases h1 : x.toNat < y.toNat
      · left
        rw [if_pos h1]
      · by_cases h2 : y.toNat < x.toNat
        · right
          rw [if_pos h2]
        · rw [if_neg h1, if_neg h2, if_neg h2, if_neg h1]
          exact ih ys

theorem charsLe_trans :
    ∀ a b c : List Char, charsLe a b = true → charsLe b c = true → charsLe a c = true := by
  intro a
  induction a with
  | nil => intro b c _ _; rfl
  | cons x xs ih =>
    intro b c hab hbc
    cases b with
    | nil => exact absurd hab (by simp [charsLe])
    | cons y ys =>
      cases c with
      | nil => exact absurd hbc (by simp [charsLe])
      | cons z zs =>
        unfold charsLe at hab hbc ⊢
        by_cases hxy : x.toNat < y.toNat
        · by_cases hyz : y.toNat < z.toNat
          · rw [if_pos (by omega : x.toNat < z.toNat)]
          · rw [if_neg hyz] at hbc
            by_cases hzy : z.toNat < y.toNat
            · rw [if_pos hzy] at hbc
              simp at hbc
            · rw [if_pos (by omega : x.toNat < z.toNat)]
        · rw [if_neg hxy] at hab
          by_cases hyx : y.toNat < x.toNat
          · rw [if_pos hyx] at hab
            simp at hab
          · rw [if_neg hyx] at hab
            by_cases hyz : y.toNat < z.toNat
            · rw [if_pos (by omega : x.toNat < z.toNat)]
            · rw [if_neg hyz] at hbc
              by_cases hzy : z.toNat < y.toNat
              · rw [if_pos hzy] at hbc
                simp at hbc
              · rw [if_neg hzy] at hbc
                rw [if_neg (by omega : ¬ x.toNat < z.toNat),
                  if_neg (by omega : ¬ z.toNat < x.toNat)]
                exact ih ys zs hab hbc

theorem charsLe_antisymm :
    ∀ a b : List Char, charsLe a b = true → charsLe b a = true → a = b := by
  intro a
  induction a with
  | nil =>
    intro b hab hba
    cases b with
    | nil => rfl
    | cons y ys => exact absurd hba (by simp [charsLe])
  | cons x xs ih =>
    intro b hab hba
    cases b with
    | nil => exact absurd hab (by simp [charsLe])
    | cons y ys =>
      unfold charsLe at hab hba
      by_cases hxy : x.toNat < y.toNat
      · rw [if_neg (by omega : ¬ y.toNat < x.toNat), if_pos hxy] at hba
        simp at hba
      · by_cases hyx : y.toNat < x.toNat
        · rw [if_pos hyx] at hab
          simp at hab
          exact absurd hab hxy
        · rw [if_neg hxy, if_neg hyx] at hab
          rw [if_neg hyx, if_neg hxy] at hba
          have hx : x = y := by
            have hn : x.toNat = y.toNat := by omega
            calc x = Char.ofNat x.toNat := (Char.ofNat_toNat x).symm
              _ = Char.ofNat y.toNat := by rw [hn]
              _ = y := Char.ofNat_toNat y
          rw [hx, ih ys hab hba]

theorem keyLeb_antisymm (a b : String) (hab : keyLeb a b = true) (hba : keyLeb b a = true) :
    a = b := by
  rcases a with ⟨la⟩
  rcases b with ⟨lb⟩
  exact congrArg String.mk (charsLe_antisymm la lb hab hba)

instance : IsTotal (String × Json) (fun p q => keyLeb p.1 q.1 = true) :=
  ⟨fun a b => charsLe_total a.1.data b.1.data⟩

instance : IsTrans (String × Json) (fun p q => keyLeb p.1 q.1 = true) :=
  ⟨fun a b c => charsLe_trans a.1.data b.1.data c.1.data⟩

theorem sortFields_perm (l : List (String × Json)) : (sortFields l).Perm l :=
  List.perm_insertionSort _ l

theorem sortFields_sorted (l : List (String × Json)) :
    (sortFields l).Sorted (fun p q => keyLeb p.1 q.1 = true) :=
  List.sorted_insertionSort _ l

theorem sortFields_of_sorted {l : List (String × Json)}
    (h : l.Sorted (fun p q => keyLeb p.1 q.1 = true)) : sortFields l = l :=
  List.Sorted.insertionSort_eq h

/-- Two key-sorted association lists that are permutations of each other
and have pairwise-distinct keys are equal. -/
theorem sorted_perm_nodupkeys_eq :
    ∀ l₁ l₂ : List (String × Json), l₁.Perm l₂ →
      l₁.Sorted (fun p q => keyLeb p.1 q.1 = true) →
      l₂.Sorted (fun p q => keyLeb p.1 q.1 = true) →
      (l₁.map Prod.fst).Nodup → l₁ = l₂ := by
  intro l₁
  induction l₁ with
  | nil =>
    intro l₂ hp _ _ _
    exact List.Perm.nil_eq hp
  | cons p t₁ ih =>
    intro l₂ hp hs₁ hs₂ hnd
    cases l₂ with
    | nil => exact absurd (List.Perm.nil_eq hp.symm) (by simp)
    | cons q t₂ =>
      have hpq : p = q := by
        have hpmem : p ∈ q :: t₂ := hp.subset (List.mem_cons_self p t₁)
        have hqmem : q ∈ p :: t₁ := hp.symm.subset (List.mem_cons_self q t₂)
        rcases List.mem_cons.mp hpmem with h1 | h1
        · exact h1
        rcases List.mem_cons.mp hqmem with h2 | h2
        · exact h2.symm
        have hle1 : keyLeb p.1 q.1 = true :=
          (List.sorted_cons.mp hs₁).1 q h2
        have hle2 : keyLeb q.1 p.1 = true :=
          (List.sorted_cons.mp hs₂).1 p h1
        have hkeys : p.1 = q.1 := keyLeb_antisymm _ _ hle1 hle2
        exfalso
        have : p.1 ∈ t₁.map Prod.fst := by
          rw [hkeys]
          exact List.mem_map_of_mem Prod.fst h2
        exact (List.nodup_cons.mp hnd).1 this
      subst hpq
      have ht : t₁ = t₂ := by
        refine ih t₂ (List.Perm.cons_inv hp) (List.sorted_cons.mp hs₁).2
          (List.sorted_cons.mp hs₂).2 (List.nodup_cons.mp hnd).2
      rw [ht]

theorem canonPairs_fst (l : List (String × Json)) :
    (canonPairs l).map Prod.fst = l.map Prod.fst := by
  induction l with
  | nil => rfl
  | cons p rest ih => simp [canonPairs, ih]

theorem distinctKeys_nodup : ∀ ks : List String, distinctKeys ks = true → ks.Nodup := by
  intro ks
  induction ks with
  | nil => intro _; exact List.nodup_nil
  | cons k rest ih =>
    intro h
    rw [distinctKeys, Bool.and_eq_true] at h
    refine List.nodup_cons.mpr ⟨?_, ih h.2⟩
    intro hmem
    have : rest.contains k = true := List.elem_eq_true_of_mem hmem
    rw [this] at h
    simp at h

theorem canonObj_toList : ∀ fs : JObj, JObj.toList (canonObj fs) = canonPairs (JObj.toList fs)
  | .nil => rfl
  | .cons k v tl => by
    simp [canonObj, JObj.toList, canonPairs, canonObj_toList tl]

theorem canonArr_toList : ∀ xs : JArr,
    JArr.toList (canonArr xs) = (JArr.toList xs).map canonicalize_value
  | .nil => rfl
  | .cons x tl => by
    simp [canonArr, JArr.toList, canonArr_toList tl]

theorem canonPairs_id_of_mem :
    ∀ l : List (String × Json), (∀ p ∈ l, canonicalize_value p.2 = p.2) → canonPairs l = l := by
  intro l
  induction l with
  | nil => intro _; rfl
  | cons p rest ih =>
    intro h
    have hp := h p (List.mem_cons_self p rest)
    have hrest := ih fun q hq => h q (List.mem_cons_of_mem p hq)
    simp only [canonPairs, List.map_cons] at hrest ⊢
    rw [hp, hrest]

theorem eraseKey_perm :
    ∀ (gs : JObj) (k : String) (w : Json) (gs' : JObj), eraseKey k gs = some (w, gs') →
      (JObj.toList gs).Perm ((k, w) :: JObj.toList gs')
  | .nil => by intro k w gs' h; simp [eraseKey] at h
  | .cons k0 v0 tl => by
    intro k w gs' h
    unfold eraseKey at h
    by_cases hk : k0 = k
    · rw [if_pos hk] at h
      obtain ⟨rfl, rfl⟩ : v0 = w ∧ tl = gs' := by
        injection h with h'
        injection h' with h1 h2
        exact ⟨h1, h2⟩
      subst hk
      exact List.Perm.refl _
    · rw [if_neg hk] at h
      cases h2 : eraseKey k tl with
      | none =>
        rw [h2] at h
        cases h
      | some pr =>
        obtain ⟨w2, tl2⟩ := pr
        rw [h2] at h
        obtain ⟨rfl, rfl⟩ : w2 = w ∧ JObj.cons k0 v0 tl2 = gs' := by
          injection h with h'
          injection h' with h1 h2'
          exact ⟨h1, h2'⟩
        have ihp := eraseKey_perm tl k w2 tl2 h2
        exact (ihp.cons (k0, v0)).trans (List.Perm.swap _ _ _)

mutual
theorem canon_idem : (v : Json) →
    canonicalize_value (canonicalize_value v) = canonicalize_value v
  | .null => rfl
  | .bool _ => rfl
  | .num _ => rfl
  | .str _ => rfl
  | .arr xs => by
    simp only [canonicalize_value]
    rw [canonArr_idem xs]
  | .obj fs => by
    simp only [canonicalize_value]
    rw [canonObj_toList, toList_ofList, canonObj_toList]
    have hS : ∀ p ∈ sortFields (canonPairs (JObj.toList fs)),
        canonicalize_value p.2 = p.2 := by
      intro p hp
      have hp' : p ∈ canonPairs (JObj.toList fs) := (sortFields_perm _).mem_iff.mp hp
      obtain ⟨q, hq, rfl⟩ := List.mem_map.mp hp'
      exact canonObj_idem_mem fs q hq
    rw [canonPairs_id_of_mem _ hS, sortFields_of_sorted (sortFields_sorted _)]
theorem canonArr_idem : (xs : JArr) → canonArr (canonArr xs) = canonArr xs
  | .nil => rfl
  | .cons x tl => by
    simp only [canonArr]
    rw [canon_idem x, canonArr_idem tl]
theorem canonObj_idem_mem : (fs : JObj) → ∀ p ∈ JObj.toList fs,
    canonicalize_value (canonicalize_value p.2) = canonicalize_value p.2
  | .nil => by
    intro p hp
    simp [JObj.toList] at hp
  | .cons k v tl => by
    intro p hp
    rcases List.mem_cons.mp hp with rfl | hmem
    · exact canon_idem v
    · exact canonObj_idem_mem tl p hmem
end

mutual
theorem keyPermB_canon : (a : Json) → ∀ b : Json, keyPermB a b = true →
    keysNodup a = true → canonicalize_value a = canonicalize_value b
  | .null => by
    intro b h _
    cases b with
    | null => rfl
    | bool y => exact Bool.noConfusion h
    | num n => exact Bool.noConfusion h
    | str s => exact Bool.noConfusion h
    | arr ys => exact Bool.noConfusion h
    | obj gs => exact Bool.noConfusion h
  | .bool x => by
    intro b h _
    cases b with
    | bool y =>
      have hxy : x = y := by simpa [keyPermB] using h
      rw [hxy]
    | null => exact Bool.noConfusion h
    | num n => exact Bool.noConfusion h
    | str s => exact Bool.noConfusion h
    | arr ys => exact Bool.noConfusion h
    | obj gs => exact Bool.noConfusion h
  | .num x => by
    intro b h _
    cases b with
    | num y =>
      have hxy : x = y := by simpa [keyPermB] using h
      rw [hxy]
    | null => exact Bool.noConfusion h
    | bool y => exact Bool.noConfusion h
    | str s => exact Bool.noConfusion h
    | arr ys => exact Bool.noConfusion h
    | obj gs => exact Bool.noConfusion h
  | .str x => by
    intro b h _
    cases b with
    | str y =>
      have hxy : x = y := by simpa [keyPermB] using h
      rw [hxy]
    | null => exact Bool.noConfusion h
    | bool y => exact Bool.noConfusion h
    | num n => exact Bool.noConfusion h
    | arr ys => exact Bool.noConfusion h
    | obj gs => exact Bool.noConfusion h
  | .arr xs => by
    intro b h hn
    cases b with
    | arr ys =>
      have h' : keyPermArr xs ys = true := h
      have hn' : keysNodupArr xs = true := hn
      simp only [canonicalize_value]
      rw [keyPermArr_canon xs ys h' hn']
    | null => exact Bool.noConfusion h
    | bool y => exact Bool.noConfusion h
    | num n => exact Bool.noConfusion h
    | str s => exact Bool.noConfusion h
    | obj gs => exact Bool.noConfusion h
  | .obj fs => by
    intro b h hn
    cases b with
    | obj gs =>
      have h' : keyPermObj fs gs = true := h
      have hn' : distinctKeys ((JObj.toList fs).map Prod.fst) = true ∧
          keysNodupObj fs = true := by
        simpa [keysNodup, Bool.and_eq_true] using hn
      have hperm := keyPermObj_perm fs gs h' hn'.2
      simp only [canonicalize_value]
      rw [canonObj_toList, canonObj_toList]
      have hnodup : ((sortFields (canonPairs (JObj.toList fs))).map Prod.fst).Nodup := by
        have hnd : ((canonPairs (JObj.toList fs)).map Prod.fst).Nodup := by
          rw [canonPairs_fst]
          exact distinctKeys_nodup _ hn'.1
        exact (((sortFields_perm (canonPairs (JObj.toList fs))).map Prod.fst).nodup_iff).mpr hnd
      have hbig : (sortFields (canonPairs (JObj.toList fs))).Perm
          (sortFields (canonPairs (JObj.toList gs))) :=
        ((sortFields_perm _).trans hperm).trans (sortFields_perm _).symm
      rw [sorted_perm_nodupkeys_eq _ _ hbig (sortFields_sorted _) (sortFields_sorted _)
        hnodup]
    | null => exact Bool.noConfusion h
    | bool y => exact Bool.noConfusion h
    | num n => exact Bool.noConfusion h
    | str s => exact Bool.noConfusion h
    | arr ys => exact Bool.noConfusion h
theorem keyPermArr_canon : (xs : JArr) → ∀ ys : JArr, keyPermArr xs ys = true →
    keysNodupArr xs = true → canonArr xs = canonArr ys
  | .nil => by
    intro ys h _
    cases ys with
    | nil => rfl
    | cons y tl' => exact Bool.noConfusion h
  | .cons x tl => by
    intro ys h hn
    cases ys with
    | nil => exact Bool.noConfusion h
    | cons y tl' =>
      have h' : keyPermB x y = true ∧ keyPermArr tl tl' = true := by
        simpa [keyPermArr, Bool.and_eq_true] using h
      have hn' : keysNodup x = true ∧ keysNodupArr tl = true := by
        simpa [keysNodupArr, Bool.and_eq_true] using hn
      simp only [canonArr]
      rw [keyPermB_canon x y h'.1 hn'.1, keyPermArr_canon tl tl' h'.2 hn'.2]
theorem keyPermObj_perm : (fs : JObj) → ∀ gs : JObj, keyPermObj fs gs = true →
    keysNodupObj fs = true →
    (canonPairs (JObj.toList fs)).Perm (canonPairs (JObj.toList gs))
  | .nil => by
    intro gs h _
    have h' : (JObj.toList gs).isEmpty = true := h
    have hnil : JObj.toList gs = [] := by simpa using h'
    rw [hnil]
    exact List.Perm.refl _
  | .cons k v tl => by
    intro gs h hn
    have hn' : keysNodup v = true ∧ keysNodupObj tl = true := by
      simpa [keysNodupObj, Bool.and_eq_true] using hn
    cases herase : eraseKey k gs with
    | none =>
      exfalso
      have h0 := h
      unfold keyPermObj at h0
      rw [herase] at h0
      exact Bool.noConfusion h0
    | some pr =>
      obtain ⟨w, gs'⟩ := pr
      have h' : keyPermB v w = true ∧ keyPermObj tl gs' = true := by
        have h0 := h
        unfold keyPermObj at h0
        rw [herase] at h0
        simpa [Bool.and_eq_true] using h0
      have hcv : canonicalize_value v = canonicalize_value w :=
        keyPermB_canon v w h'.1 hn'.1
      have ihp := keyPermObj_perm tl gs' h'.2 hn'.2
      have hgperm : (JObj.toList gs).Perm ((k, w) :: JObj.toList gs') :=
        eraseKey_perm gs k w gs' herase
      have hcanon_g : (canonPairs (JObj.toList gs)).Perm
          ((k, canonicalize_value w) :: canonPairs (JObj.toList gs')) := by
        have hm := hgperm.map (fun p => (p.1, canonicalize_value p.2))
        simpa [canonPairs] using hm
      show ((k, canonicalize_value v) :: canonPairs (JObj.toList tl)).Perm
        (canonPairs (JObj.toList gs))
      rw [hcv]
      exact (ihp.cons (k, canonicalize_value w)).trans hcanon_g.symm
end

/-- C8: canonicalization is idempotent; two values equal up to recursive
object-key ordering (with each object keyed uniquely, as `serde_json` maps
are) canonicalize — and therefore serialize and hash — identically; array
order and scalar values are preserved unchanged. -/
theorem canonicalization_spec :
    (∀ v : Json, canonicalize_value (canonicalize_value v) = canonicalize_value v) ∧
    (∀ a b : Json, keyPermB a b = true → keysNodup a = true →
      canonicalize_value a = canonicalize_value b ∧
      jsonString (canonicalize_value a) = jsonString (canonicalize_value b) ∧
      sha256hex (strBytes (jsonString (canonicalize_value a))) =
        sha256hex (strBytes (jsonString (canonicalize_value b)))) ∧
    (∀ xs : JArr, canonicalize_value (.arr xs) = .arr (canonArr xs) ∧
      JArr.toList (canonArr xs) = (JArr.toList xs).map canonicalize_value) ∧
    canonicalize_value .null = .null ∧
    (∀ b : Bool, canonicalize_value (.bool b) = .bool b) ∧
    (∀ n : Nat, canonicalize_value (.num n) = .num n) ∧
    (∀ s : String, canonicalize_value (.str s) = .str s) := by
  refine ⟨canon_idem, ?_, ?_, rfl, fun _ => rfl, fun _ => rfl, fun _ => rfl⟩
  · intro a b h hn
    have hc := keyPermB_canon a b h hn
    exact ⟨hc, by rw [hc], by rw [hc]⟩
  · intro xs
    exact ⟨rfl, canonArr_toList xs⟩

theorem canonicalization_spec_witness :
    sha256hex (strBytes (jsonString (canonicalize_value jObjBA))) =
      sha256hex (strBytes (jsonString (canonicalize_value jObjAB))) :=
  ((canonicalization_spec.2.1 jObjBA jObjAB (by decide) (by decide)).2.2)

end Vault
